import Mathlib

/-!
Verification of the region-selection / edit-history core of the
renderless repository.

The definitions below are shallow embeddings of the corresponding
TypeScript functions:

* `encodePixel` / `decodePixel`      — mask codec convention (white = selected,
  black = unselected; decode thresholds the red channel at 128) from
  `BrushMaskCanvas`/`SegmentationCanvas` mask painting and
  `compositeImages` (`maskValue > 128`).
* `drawBrush` / `clearMask`          — `BrushMaskCanvas.drawBrush` /
  `BrushMaskCanvas.clearMask`.
* `scanBounds`                       — the tight-bounds scan of
  `ImageCanvas.updateMaskFromCanvas` / `BrushMaskCanvas.handleMouseUp`.
* `paddedBounds`                     — the padded/clamped bounds computation at
  the end of `segmentAtPoint` (padding is the configured constant 10).
* `floodLoop` / `segmentRun`         — the flood-fill worklist loop of
  `segmentAtPoint`.
* `createProject` / `addVersion` / `setCurrentVersion` / `walkHistory` —
  the zustand project store (version graph).
-/

namespace Renderless

/-- An RGBA sample with 8-bit channels modelled as natural numbers 0–255. -/
structure Rgba where
  r : Nat
  g : Nat
  b : Nat
  a : Nat
deriving DecidableEq, Repr

/-- Mask encoding: a selected pixel renders as opaque white, an unselected
pixel as opaque black (the brush canvas is filled black and painted white). -/
def encodePixel (sel : Bool) : Rgba :=
  if sel then ⟨255, 255, 255, 255⟩ else ⟨0, 0, 0, 255⟩

/-- Encode a binary mask as an RGBA image. -/
def encodeMask (m : Nat → Nat → Bool) : Nat → Nat → Rgba :=
  fun x y => encodePixel (m x y)

/-- Mask decoding: a pixel is selected exactly when its red channel exceeds
128 (`compositeImages`: `maskValue > 128`). -/
def decodePixel (red : Nat) : Bool :=
  128 < red

/-- Decode an RGBA image back to a binary mask by thresholding red at 128. -/
def decodeMask (img : Nat → Nat → Rgba) : Nat → Nat → Bool :=
  fun x y => decodePixel (img x y).r

/-- Squared Euclidean distance between two integer pixel coordinates. -/
def distSq (p c : Int × Int) : Int :=
  (p.1 - c.1) ^ 2 + (p.2 - c.2) ^ 2

/-- One brush stamp: `ctx.arc(x, y, brushSize, 0, 2π); ctx.fill()` with white
fill paints every pixel of the disc white and leaves all other pixels as they
were. -/
def drawBrush (m : Int × Int → Bool) (c : Int × Int) (radius : Int) :
    Int × Int → Bool :=
  fun p => if distSq p c ≤ radius ^ 2 then true else m p

/-- Clearing the mask canvas fills it with black: nothing is selected. -/
def clearMask : Int × Int → Bool :=
  fun _ => false

/-- A brush session applies a sequence of stamps (center, radius) in order. -/
def applyStamps (stamps : List ((Int × Int) × Int)) (m : Int × Int → Bool) :
    Int × Int → Bool :=
  stamps.foldl (fun acc s => drawBrush acc s.1 s.2) m

/-- Axis-aligned rectangle in image coordinates, as produced by the canvas
code (plain JavaScript numbers, modelled as integers). -/
structure SegBounds where
  x : Int
  y : Int
  width : Int
  height : Int
deriving DecidableEq, Repr

/-- Accumulator of the tight-bounds scan: running min/max plus the
`hasWhite` flag. -/
structure ScanAcc where
  minX : Int
  minY : Int
  maxX : Int
  maxY : Int
  hasWhite : Bool
deriving DecidableEq, Repr

/-- Row-major enumeration of the pixels of a `w × h` grid, matching the
nested `for (y) for (x)` loops of the scan. -/
def pixelList (w h : Nat) : List (Nat × Nat) :=
  (List.range h).flatMap (fun y => (List.range w).map (fun x => (x, y)))

/-- One iteration of the bounds scan: if the red channel of the pixel exceeds
128, fold it into the running min/max and set `hasWhite`. -/
def scanStep (red : Nat → Nat → Nat) (acc : ScanAcc) (p : Nat × Nat) : ScanAcc :=
  if decodePixel (red p.1 p.2) then
    { minX := min acc.minX (p.1 : Int), minY := min acc.minY (p.2 : Int),
      maxX := max acc.maxX (p.1 : Int), maxY := max acc.maxY (p.2 : Int),
      hasWhite := true }
  else acc

/-- The tight-bounds scan of `updateMaskFromCanvas` / `handleMouseUp`: scan
every pixel; if no pixel is selected return `none`, otherwise the tight
bounding box `{x = minX, y = minY, width = maxX - minX, height = maxY - minY}`. -/
def scanBounds (w h : Nat) (red : Nat → Nat → Nat) : Option SegBounds :=
  let acc := (pixelList w h).foldl (scanStep red) ⟨(w : Int), (h : Int), 0, 0, false⟩
  if acc.hasWhite then
    some ⟨acc.minX, acc.minY, acc.maxX - acc.minX, acc.maxY - acc.minY⟩
  else none

/-- The padding constant hard-coded at both `segmentAtPoint` call sites. -/
def segPadding : Int := 10

/-- The padded bounds computation at the end of `segmentAtPoint`:
`x = max(0, minX - padding)`, `y = max(0, minY - padding)`,
`width = min(width - minX + padding, maxX - minX + padding * 2)`,
`height = min(height - minY + padding, maxY - minY + padding * 2)`. -/
def paddedBounds (w h : Nat) (minX minY maxX maxY : Int) : SegBounds :=
  { x := max 0 (minX - segPadding),
    y := max 0 (minY - segPadding),
    width := min ((w : Int) - minX + segPadding) (maxX - minX + segPadding * 2),
    height := min ((h : Int) - minY + segPadding) (maxY - minY + segPadding * 2) }

/-- Leftmost column of a nonempty pixel set. -/
def tightMinX (m : Finset (Int × Int)) (hm : m.Nonempty) : Int :=
  m.inf' hm Prod.fst

/-- Topmost row of a nonempty pixel set. -/
def tightMinY (m : Finset (Int × Int)) (hm : m.Nonempty) : Int :=
  m.inf' hm Prod.snd

/-- Rightmost column of a nonempty pixel set. -/
def tightMaxX (m : Finset (Int × Int)) (hm : m.Nonempty) : Int :=
  m.sup' hm Prod.fst

/-- Bottom row of a nonempty pixel set. -/
def tightMaxY (m : Finset (Int × Int)) (hm : m.Nonempty) : Int :=
  m.sup' hm Prod.snd

/-- Padded bounds of a nonempty mask: the tight box of the selected pixels is
expanded and clamped by `paddedBounds`. -/
def maskPaddedBounds (w h : Nat) (m : Finset (Int × Int)) (hm : m.Nonempty) :
    SegBounds :=
  paddedBounds w h (tightMinX m hm) (tightMinY m hm) (tightMaxX m hm) (tightMaxY m hm)

theorem decode_encode_pixel (sel : Bool) :
    decodePixel (encodePixel sel).r = sel := by
  cases sel <;> decide

theorem scanStep_of_black (red : Nat → Nat → Nat) (acc : ScanAcc) (p : Nat × Nat)
    (hp : decodePixel (red p.1 p.2) = false) : scanStep red acc p = acc := by
  simp [scanStep, hp]

theorem foldl_scanStep_of_black (red : Nat → Nat → Nat) (l : List (Nat × Nat))
    (hl : ∀ p ∈ l, decodePixel (red p.1 p.2) = false) (acc : ScanAcc) :
    l.foldl (scanStep red) acc = acc := by
  induction l generalizing acc with
  | nil => rfl
  | cons p t ih =>
      rw [List.foldl_cons, scanStep_of_black red acc p (hl p (List.mem_cons_self p t))]
      exact ih (fun q hq => hl q (List.mem_cons_of_mem p hq)) acc

theorem mem_pixelList (w h : Nat) (p : Nat × Nat) (hp : p ∈ pixelList w h) :
    p.1 < w ∧ p.2 < h := by
  simp only [pixelList, List.mem_flatMap, List.mem_map, List.mem_range] at hp
  obtain ⟨y, hy, x, hx, rfl⟩ := hp
  exact ⟨hx, hy⟩

/-- C4: round-trip law of the mask codec: decoding an encoded mask recovers
the mask exactly, for every mask including the empty and the full one
(selected pixels encode as opaque white, unselected as opaque black, and
decoding selects exactly the pixels whose red channel exceeds 128). -/
theorem decode_encode_roundtrip_C4 (m : Nat → Nat → Bool) :
    decodeMask (encodeMask m) = m := by
  funext x y
  simp [decodeMask, encodeMask, decode_encode_pixel]

/-- C9: a brush stamp turns the selected set S into the union of S with the
disc of the stamp (every pixel within Euclidean distance radius of the
center becomes selected, nothing is deselected); across any sequence of
stamps the selected set only grows, and `clearMask` is the operation that
deselects everything. -/
theorem brush_stamps_monotone_C9 :
    (∀ (m : Int × Int → Bool) (c : Int × Int) (radius : Int) (p : Int × Int),
        drawBrush m c radius p = (m p || decide (distSq p c ≤ radius ^ 2))) ∧
    (∀ (stamps : List ((Int × Int) × Int)) (m : Int × Int → Bool) (p : Int × Int),
        m p = true → applyStamps stamps m p = true) ∧
    (∀ p : Int × Int, clearMask p = false) := by
  refine ⟨?_, ?_, fun _ => rfl⟩
  · intro m c radius p
    by_cases h : distSq p c ≤ radius ^ 2
    · simp [drawBrush, h]
    · simp [drawBrush, h]
  · intro stamps
    induction stamps with
    | nil =>
        intro m p h
        simpa [applyStamps] using h
    | cons s t ih =>
        intro m p h
        have hstep : drawBrush m s.1 s.2 p = true := by
          by_cases hd : distSq p s.1 ≤ s.2 ^ 2 <;> simp [drawBrush, hd, h]
        simpa [applyStamps] using ih (drawBrush m s.1 s.2) p hstep

theorem brush_stamps_monotone_C9_witness :
    applyStamps [((0, 0), 5)] (fun q => decide (q = ((9 : Int), (9 : Int)))) (9, 9)
      = true :=
  brush_stamps_monotone_C9.2.1 [((0, 0), 5)]
    (fun q => decide (q = ((9 : Int), (9 : Int)))) (9, 9) (by decide)

/-- C6: a mask with zero selected pixels has no bounds: the scan over an
all-unselected mask reports `none` — no current mask / no active selection —
rather than a zero-size rectangle. -/
theorem extractBounds_empty_C6 (w h : Nat) (red : Nat → Nat → Nat)
    (hempty : ∀ x y, x < w → y < h → decodePixel (red x y) = false) :
    scanBounds w h red = none := by
  have hfold := foldl_scanStep_of_black red (pixelList w h)
    (fun p hp => hempty p.1 p.2 (mem_pixelList w h p hp).1 (mem_pixelList w h p hp).2)
    ⟨(w : Int), (h : Int), 0, 0, false⟩
  simp [scanBounds, hfold]

theorem extractBounds_empty_C6_witness :
    scanBounds 2 2 (fun _ _ => 0) = none :=
  extractBounds_empty_C6 2 2 (fun _ _ => 0) (fun _ _ _ _ => rfl)

/-- C2: evaluation of the padded bounds computation at a failing input: on a
10×10 image whose mask selects only the pixel (5,5), with the configured
padding 10, the produced rectangle has x = 0 and width = 15, so x + width =
15 exceeds the image width 10 — the claimed clamping invariant
x + width ≤ imageWidth does not hold. -/
theorem paddedBounds_right_overflow_C2 :
    (maskPaddedBounds 10 10 {((5 : Int), (5 : Int))}
        (Finset.singleton_nonempty _)).x = 0 ∧
    (maskPaddedBounds 10 10 {((5 : Int), (5 : Int))}
        (Finset.singleton_nonempty _)).width = 15 ∧
    ¬ ((maskPaddedBounds 10 10 {((5 : Int), (5 : Int))}
        (Finset.singleton_nonempty _)).x +
       (maskPaddedBounds 10 10 {((5 : Int), (5 : Int))}
        (Finset.singleton_nonempty _)).width ≤ 10) := by
  decide

/-- Image buffer: width, height and the RGBA samples, indexed like
`imageData.data` by the row-major key `y * width + x`. -/
structure Img where
  width : Nat
  height : Nat
  data : Nat → Rgba

/-- Absolute difference of two channel values (`Math.abs(r - targetR)`). -/
def chanDiff (a b : Nat) : Nat :=
  ((a : Int) - (b : Int)).natAbs

/-- Color-similarity test of `segmentAtPoint`: the candidate is rejected when
the summed absolute R, G, B differences from the target color exceed
`tolerance * 3`. -/
def colorOk (img : Img) (target : Rgba) (tol : Nat) (p : Int × Int) : Bool :=
  let c := img.data (p.2 * img.width + p.1).toNat
  if chanDiff c.r target.r + chanDiff c.g target.g + chanDiff c.b target.b > tol * 3
  then false else true

/-- Row-major key of a pixel, `py * width + px`, exactly as computed by the
loop (before the bounds check, so the coordinates may be negative). -/
def pixKey (w : Nat) (p : Int × Int) : Int :=
  p.2 * w + p.1

/-- In-bounds test of the loop (`px < 0 || px >= width || py < 0 ||
py >= height` causes a skip). -/
def inBounds (w h : Nat) (p : Int × Int) : Bool :=
  if p.1 < 0 ∨ (w : Int) ≤ p.1 ∨ p.2 < 0 ∨ (h : Int) ≤ p.2 then false else true

/-- Worklist state of the flood fill: pending pixels, visited keys, accepted
pixels (the white mask pixels) and the log of color-test evaluations. -/
structure FloodState where
  stack : List (Int × Int)
  visited : Finset Int
  mask : Finset (Int × Int)
  evals : List (Int × Int)
deriving DecidableEq

/-- The four 4-connected neighbors in the push order of the code:
`(px+1,py), (px-1,py), (px,py+1), (px,py-1)`. -/
def neighbors (p : Int × Int) : List (Int × Int) :=
  [(p.1 + 1, p.2), (p.1 - 1, p.2), (p.1, p.2 + 1), (p.1, p.2 - 1)]

/-- A worklist discipline: how the remaining worklist and the newly pushed
neighbors combine into the next worklist. Only membership and length are
constrained, so both LIFO and FIFO processing are instances. -/
structure Discipline where
  sched : List (Int × Int) → List (Int × Int) → List (Int × Int)
  length_sched : ∀ r n, (sched r n).length = r.length + n.length
  mem_sched : ∀ x r n, x ∈ sched r n ↔ x ∈ r ∨ x ∈ n

/-- LIFO, the discipline of the code (`stack.push` / `stack.pop`): the list
head models the top of the JavaScript array, so pushed neighbors go, in
reverse push order, on top of the rest. -/
def stackDisc : Discipline where
  sched := fun r n => n.reverse ++ r
  length_sched := by
    intro r n
    simp [Nat.add_comm]
  mem_sched := by
    intro x r n
    simp [or_comm]

/-- FIFO: pop from the front of the worklist, append pushed neighbors at the
back. -/
def queueDisc : Discipline where
  sched := fun r n => r ++ n
  length_sched := by
    intro r n
    simp
  mem_sched := by
    intro x r n
    simp

/-- One run of the flood-fill worklist loop of `segmentAtPoint`, with
explicit fuel. Each iteration pops a pixel; a pixel whose key is already
visited, or that lies out of bounds, is skipped; otherwise the color test
runs (logged in `evals`); on failure the pixel is skipped, on success its
key is marked visited, the mask pixel is set white, and its four neighbors
are pushed. -/
def floodLoop (w h : Nat) (pred : Int × Int → Bool) (d : Discipline) :
    Nat → FloodState → FloodState
  | 0, s => s
  | fuel + 1, s =>
    match s.stack with
    | [] => s
    | p :: rest =>
      if pixKey w p ∈ s.visited then
        floodLoop w h pred d fuel { s with stack := rest }
      else if inBounds w h p = false then
        floodLoop w h pred d fuel { s with stack := rest }
      else if pred p = false then
        floodLoop w h pred d fuel { s with stack := rest, evals := p :: s.evals }
      else
        floodLoop w h pred d fuel
          { stack := d.sched rest (neighbors p),
            visited := insert (pixKey w p) s.visited,
            mask := insert p s.mask,
            evals := p :: s.evals }

/-- Fuel that always suffices for the loop to drain its worklist starting
from a single seed (`floodLoop_stack_nil`). -/
def floodFuel (w h : Nat) : Nat :=
  5 * (w * h) + 1

/-- `segmentAtPoint` from the click through the flood fill: read the target
color at the seed key, then run the worklist loop seeded with the clicked
pixel. -/
def segmentRun (img : Img) (seedX seedY tol : Nat) (d : Discipline) :
    FloodState :=
  floodLoop img.width img.height
    (colorOk img (img.data (seedY * img.width + seedX)) tol) d
    (floodFuel img.width img.height)
    { stack := [((seedX : Int), (seedY : Int))], visited := ∅, mask := ∅,
      evals := [] }

/-- The set of pixels selected by `segmentAtPoint`. -/
def segmentMask (img : Img) (seedX seedY tol : Nat) (d : Discipline) :
    Finset (Int × Int) :=
  (segmentRun img seedX seedY tol d).mask

/-- Pixels that pass both the bounds check and the color test. -/
def okPixel (w h : Nat) (pred : Int × Int → Bool) (p : Int × Int) : Prop :=
  inBounds w h p = true ∧ pred p = true

/-- The 4-connected component, within the acceptable pixels, containing the
seed: the specification-level description of the selected set. -/
inductive Reach (w h : Nat) (pred : Int × Int → Bool) (seed : Int × Int) :
    (Int × Int) → Prop
  | refl : okPixel w h pred seed → Reach w h pred seed seed
  | step {p q : Int × Int} : Reach w h pred seed p → q ∈ neighbors p →
      okPixel w h pred q → Reach w h pred seed q

/-- Keys of the in-bounds pixels, used for the termination measure. -/
def validKeys (w h : Nat) : Finset Int :=
  (Finset.range (w * h)).image (fun n => (Int.ofNat n))

/-- Termination measure of the worklist loop: accepting a pixel removes a
fresh valid key, every step shortens or trades the worklist. -/
def floodMeasure (w h : Nat) (s : FloodState) : Nat :=
  5 * ((validKeys w h) \ s.visited).card + s.stack.length

theorem inBounds_iff (w h : Nat) (p : Int × Int) :
    inBounds w h p = true ↔
      0 ≤ p.1 ∧ p.1 < (w : Int) ∧ 0 ≤ p.2 ∧ p.2 < (h : Int) := by
  unfold inBounds
  split <;> rename_i hcond <;> simp <;> omega

theorem inBounds_pair_iff (w h : Nat) (x y : Int) :
    inBounds w h (x, y) = true ↔
      0 ≤ x ∧ x < (w : Int) ∧ 0 ≤ y ∧ y < (h : Int) :=
  inBounds_iff w h (x, y)

theorem pixKey_mk (w : Nat) (x y : Int) : pixKey w (x, y) = y * w + x :=
  rfl

theorem grid_key_inj (w na nb nc nd : Nat) (ha : na < w) (hc : nc < w)
    (hk : nb * w + na = nd * w + nc) : na = nc ∧ nb = nd := by
  have hw : 0 < w := by omega
  have e1 : (nb * w + na) % w = na % w := by
    rw [Nat.add_comm, Nat.add_mul_mod_self_right]
  have e2 : (nd * w + nc) % w = nc % w := by
    rw [Nat.add_comm, Nat.add_mul_mod_self_right]
  have h1 : na = nc := by
    rw [← Nat.mod_eq_of_lt ha, ← Nat.mod_eq_of_lt hc, ← e1, ← e2, hk]
  subst h1
  refine ⟨rfl, ?_⟩
  have h2 : nb * w = nd * w := by omega
  exact Nat.eq_of_mul_eq_mul_right hw h2

theorem pixKey_inj (w h : Nat) (p q : Int × Int)
    (hp : inBounds w h p = true) (hq : inBounds w h q = true)
    (hk : pixKey w p = pixKey w q) : p = q := by
  obtain ⟨px, py⟩ := p
  obtain ⟨qx, qy⟩ := q
  rw [inBounds_pair_iff] at hp hq
  obtain ⟨hp1, hp2, hp3, hp4⟩ := hp
  obtain ⟨hq1, hq2, hq3, hq4⟩ := hq
  obtain ⟨a, rfl⟩ := Int.eq_ofNat_of_zero_le hp1
  obtain ⟨b, rfl⟩ := Int.eq_ofNat_of_zero_le hp3
  obtain ⟨c, rfl⟩ := Int.eq_ofNat_of_zero_le hq1
  obtain ⟨d, rfl⟩ := Int.eq_ofNat_of_zero_le hq3
  have ha : a < w := by exact_mod_cast hp2
  have hc : c < w := by exact_mod_cast hq2
  have hk2 : b * w + a = d * w + c := by
    have hcast := hk
    simp only [pixKey_mk] at hcast
    exact_mod_cast hcast
  obtain ⟨h1, h2⟩ := grid_key_inj w a b c d ha hc hk2
  subst h1
  subst h2
  rfl

theorem pixKey_mem_validKeys (w h : Nat) (p : Int × Int)
    (hp : inBounds w h p = true) : pixKey w p ∈ validKeys w h := by
  obtain ⟨px, py⟩ := p
  rw [inBounds_pair_iff] at hp
  obtain ⟨hp1, hp2, hp3, hp4⟩ := hp
  obtain ⟨a, rfl⟩ := Int.eq_ofNat_of_zero_le hp1
  obtain ⟨b, rfl⟩ := Int.eq_ofNat_of_zero_le hp3
  have ha : a < w := by exact_mod_cast hp2
  have hb : b < h := by exact_mod_cast hp4
  simp only [validKeys, Finset.mem_image, Finset.mem_range]
  refine ⟨b * w + a, ?_, ?_⟩
  · calc b * w + a < b * w + w := by omega
      _ = (b + 1) * w := by ring
      _ ≤ h * w := Nat.mul_le_mul_right w (by omega)
      _ = w * h := Nat.mul_comm h w
  · simp only [pixKey_mk, Int.ofNat_eq_natCast]
    push_cast
    ring

theorem card_validKeys (w h : Nat) : (validKeys w h).card = w * h := by
  rw [validKeys, Finset.card_image_of_injective _ (fun a b hab => Int.ofNat.inj hab),
    Finset.card_range]

theorem floodLoop_stack_nil (w h : Nat) (pred : Int × Int → Bool)
    (d : Discipline) :
    ∀ fuel s, floodMeasure w h s ≤ fuel →
      (floodLoop w h pred d fuel s).stack = [] := by
  intro fuel
  induction fuel with
  | zero =>
      intro s hm
      simp only [floodMeasure] at hm
      have : s.stack.length = 0 := by omega
      simpa [floodLoop] using List.length_eq_zero.mp this
  | succ n ih =>
      intro s hm
      cases hstack : s.stack with
      | nil => simp [floodLoop, hstack]
      | cons p rest =>
          have hlen : s.stack.length = rest.length + 1 := by rw [hstack]; rfl
          by_cases hvis : pixKey w p ∈ s.visited
          · simp only [floodLoop, hstack]
            rw [if_pos hvis]
            exact ih _ (by simp only [floodMeasure] at hm ⊢; omega)
          · by_cases hinB : inBounds w h p = false
            · simp only [floodLoop, hstack]
              rw [if_neg hvis, if_pos hinB]
              exact ih _ (by simp only [floodMeasure] at hm ⊢; omega)
            · by_cases hpred : pred p = false
              · simp only [floodLoop, hstack]
                rw [if_neg hvis, if_neg hinB, if_pos hpred]
                exact ih _ (by simp only [floodMeasure] at hm ⊢; omega)
              · simp only [floodLoop, hstack]
                rw [if_neg hvis, if_neg hinB, if_neg hpred]
                apply ih
                have hkey : pixKey w p ∈ validKeys w h \ s.visited :=
                  Finset.mem_sdiff.mpr
                    ⟨pixKey_mem_validKeys w h p (by revert hinB; cases inBounds w h p <;> simp),
                     hvis⟩
                have hcard : ((validKeys w h) \ insert (pixKey w p) s.visited).card
                    = ((validKeys w h) \ s.visited).card - 1 := by
                  rw [Finset.sdiff_insert, Finset.card_erase_of_mem hkey]
                have hpos : 0 < ((validKeys w h) \ s.visited).card :=
                  Finset.card_pos.mpr ⟨pixKey w p, hkey⟩
                simp only [floodMeasure] at hm ⊢
                simp only [hcard, d.length_sched]
                simp only [neighbors, List.length_cons, List.length_nil]
                omega

/-- Loop invariant of the flood fill, tying the worklist state to the
4-connected component of the seed: accepted pixels are reachable and
in bounds, worklist entries are the seed or neighbors of accepted pixels,
acceptable neighbors of accepted pixels are accounted for, `visited` holds
exactly the keys of the accepted pixels, and every acceptable pixel has been
color-tested once if accepted and not at all otherwise. -/
structure FloodInv (w h : Nat) (pred : Int × Int → Bool) (seed : Int × Int)
    (s : FloodState) : Prop where
  mask_reach : ∀ p ∈ s.mask, Reach w h pred seed p
  stack_ok : ∀ p ∈ s.stack, p = seed ∨ ∃ q ∈ s.mask, p ∈ neighbors q
  closed : ∀ q ∈ s.mask, ∀ n ∈ neighbors q, okPixel w h pred n →
    n ∈ s.mask ∨ n ∈ s.stack
  seed_in : seed ∈ s.mask ∨ seed ∈ s.stack
  vis_eq : s.visited = s.mask.image (pixKey w)
  mask_inb : ∀ p ∈ s.mask, inBounds w h p = true
  evals_count : ∀ p, okPixel w h pred p →
    s.evals.count p = (if p ∈ s.mask then 1 else 0)

theorem mem_of_visited (w h : Nat) (s : FloodState) (p : Int × Int)
    (hvis_eq : s.visited = s.mask.image (pixKey w))
    (hmask_inb : ∀ q ∈ s.mask, inBounds w h q = true)
    (hp : inBounds w h p = true) (hkey : pixKey w p ∈ s.visited) :
    p ∈ s.mask := by
  rw [hvis_eq] at hkey
  obtain ⟨q, hq, hqk⟩ := Finset.mem_image.mp hkey
  rwa [pixKey_inj w h q p (hmask_inb q hq) hp hqk] at hq

theorem floodInv_skip_visited (w h : Nat) (pred : Int × Int → Bool)
    (seed p : Int × Int) (rest : List (Int × Int)) (s : FloodState)
    (hseed : okPixel w h pred seed) (hstack : s.stack = p :: rest)
    (hinv : FloodInv w h pred seed s) (hvis : pixKey w p ∈ s.visited) :
    FloodInv w h pred seed { s with stack := rest } := by
  obtain ⟨hmr, hso, hcl, hsi, hve, hmi, hec⟩ := hinv
  refine ⟨hmr, ?_, ?_, ?_, hve, hmi, hec⟩
  · intro q hq
    exact hso q (by rw [hstack]; exact List.mem_cons_of_mem p hq)
  · intro q hq n hn hok
    rcases hcl q hq n hn hok with hm | hs
    · exact Or.inl hm
    · rw [hstack] at hs
      rcases List.mem_cons.mp hs with rfl | hs2
      · exact Or.inl (mem_of_visited w h s n hve hmi hok.1 hvis)
      · exact Or.inr hs2
  · rcases hsi with hm | hs
    · exact Or.inl hm
    · rw [hstack] at hs
      rcases List.mem_cons.mp hs with heq | hs2
      · subst heq
        exact Or.inl (mem_of_visited w h s seed hve hmi hseed.1 hvis)
      · exact Or.inr hs2

theorem floodInv_skip_oob (w h : Nat) (pred : Int × Int → Bool)
    (seed p : Int × Int) (rest : List (Int × Int)) (s : FloodState)
    (hseed : okPixel w h pred seed) (hstack : s.stack = p :: rest)
    (hinv : FloodInv w h pred seed s) (hoob : inBounds w h p = false) :
    FloodInv w h pred seed { s with stack := rest } := by
  obtain ⟨hmr, hso, hcl, hsi, hve, hmi, hec⟩ := hinv
  refine ⟨hmr, ?_, ?_, ?_, hve, hmi, hec⟩
  · intro q hq
    exact hso q (by rw [hstack]; exact List.mem_cons_of_mem p hq)
  · intro q hq n hn hok
    rcases hcl q hq n hn hok with hm | hs
    · exact Or.inl hm
    · rw [hstack] at hs
      rcases List.mem_cons.mp hs with rfl | hs2
      · rw [hok.1] at hoob
        simp at hoob
      · exact Or.inr hs2
  · rcases hsi with hm | hs
    · exact Or.inl hm
    · rw [hstack] at hs
      rcases List.mem_cons.mp hs with heq | hs2
      · subst heq
        rw [hseed.1] at hoob
        simp at hoob
      · exact Or.inr hs2

theorem floodInv_reject (w h : Nat) (pred : Int × Int → Bool)
    (seed p : Int × Int) (rest : List (Int × Int)) (s : FloodState)
    (hseed : okPixel w h pred seed) (hstack : s.stack = p :: rest)
    (hinv : FloodInv w h pred seed s) (hpred : pred p = false) :
    FloodInv w h pred seed { s with stack := rest, evals := p :: s.evals } := by
  obtain ⟨hmr, hso, hcl, hsi, hve, hmi, hec⟩ := hinv
  refine ⟨hmr, ?_, ?_, ?_, hve, hmi, ?_⟩
  · intro q hq
    exact hso q (by rw [hstack]; exact List.mem_cons_of_mem p hq)
  · intro q hq n hn hok
    rcases hcl q hq n hn hok with hm | hs
    · exact Or.inl hm
    · rw [hstack] at hs
      rcases List.mem_cons.mp hs with rfl | hs2
      · rw [hok.2] at hpred
        simp at hpred
      · exact Or.inr hs2
  · rcases hsi with hm | hs
    · exact Or.inl hm
    · rw [hstack] at hs
      rcases List.mem_cons.mp hs with heq | hs2
      · subst heq
        rw [hseed.2] at hpred
        simp at hpred
      · exact Or.inr hs2
  · intro q hok
    have hqp : q ≠ p := by
      intro heq
      subst heq
      rw [hok.2] at hpred
      simp at hpred
    simp only [List.count_cons, beq_iff_eq]
    rw [if_neg (fun hc => hqp hc.symm), Nat.add_zero]
    exact hec q hok

theorem floodInv_accept (w h : Nat) (pred : Int × Int → Bool) (d : Discipline)
    (seed p : Int × Int) (rest : List (Int × Int)) (s : FloodState)
    (hseed : okPixel w h pred seed) (hstack : s.stack = p :: rest)
    (hinv : FloodInv w h pred seed s) (hvis : pixKey w p ∉ s.visited)
    (hinb : inBounds w h p = true) (hpred : pred p = true) :
    FloodInv w h pred seed
      { stack := d.sched rest (neighbors p),
        visited := insert (pixKey w p) s.visited,
        mask := insert p s.mask,
        evals := p :: s.evals } := by
  obtain ⟨hmr, hso, hcl, hsi, hve, hmi, hec⟩ := hinv
  have hpmem : p ∈ s.stack := by rw [hstack]; exact List.mem_cons_self p rest
  have hpnotmask : p ∉ s.mask := fun hm =>
    hvis (by rw [hve]; exact Finset.mem_image_of_mem _ hm)
  have hreach_p : Reach w h pred seed p := by
    rcases hso p hpmem with rfl | ⟨q, hq, hn⟩
    · exact Reach.refl hseed
    · exact Reach.step (hmr q hq) hn ⟨hinb, hpred⟩
  constructor
  · intro q hq
    rcases Finset.mem_insert.mp hq with rfl | hq2
    · exact hreach_p
    · exact hmr q hq2
  · intro x hx
    rcases (d.mem_sched x rest (neighbors p)).mp hx with hr | hn
    · rcases hso x (by rw [hstack]; exact List.mem_cons_of_mem p hr) with rfl | ⟨q, hq, hqn⟩
      · exact Or.inl rfl
      · exact Or.inr ⟨q, Finset.mem_insert_of_mem hq, hqn⟩
    · exact Or.inr ⟨p, Finset.mem_insert_self p s.mask, hn⟩
  · intro q hq n hn hok
    rcases Finset.mem_insert.mp hq with rfl | hq2
    · exact Or.inr ((d.mem_sched n rest (neighbors q)).mpr (Or.inr hn))
    · rcases hcl q hq2 n hn hok with hm | hs
      · exact Or.inl (Finset.mem_insert_of_mem hm)
      · rw [hstack] at hs
        rcases List.mem_cons.mp hs with rfl | hs2
        · exact Or.inl (Finset.mem_insert_self n s.mask)
        · exact Or.inr ((d.mem_sched n rest (neighbors p)).mpr (Or.inl hs2))
  · rcases hsi with hm | hs
    · exact Or.inl (Finset.mem_insert_of_mem hm)
    · rw [hstack] at hs
      rcases List.mem_cons.mp hs with heq | hs2
      · subst heq
        exact Or.inl (Finset.mem_insert_self seed s.mask)
      · exact Or.inr ((d.mem_sched seed rest (neighbors p)).mpr (Or.inl hs2))
  · rw [Finset.image_insert, hve]
  · intro q hq
    rcases Finset.mem_insert.mp hq with rfl | hq2
    · exact hinb
    · exact hmi q hq2
  · intro q hok
    by_cases hqp : q = p
    · subst hqp
      have h0 := hec q hok
      rw [if_neg hpnotmask] at h0
      simp [List.count_cons, h0, Finset.mem_insert_self]
    · have h0 := hec q hok
      simp only [List.count_cons, beq_iff_eq]
      rw [if_neg (fun hc => hqp hc.symm), Nat.add_zero, h0]
      by_cases hqm : q ∈ s.mask
      · rw [if_pos hqm, if_pos (Finset.mem_insert_of_mem hqm)]
      · rw [if_neg hqm, if_neg (fun hc => by
          rcases Finset.mem_insert.mp hc with heq | hm
          · exact hqp heq
          · exact hqm hm)]

theorem floodLoop_inv (w h : Nat) (pred : Int × Int → Bool) (d : Discipline)
    (seed : Int × Int) (hseed : okPixel w h pred seed) :
    ∀ fuel s, FloodInv w h pred seed s →
      FloodInv w h pred seed (floodLoop w h pred d fuel s) := by
  intro fuel
  induction fuel with
  | zero =>
      intro s hs
      simpa [floodLoop] using hs
  | succ n ih =>
      intro s hs
      cases hstack : s.stack with
      | nil =>
          simp only [floodLoop, hstack]
          exact hs
      | cons p rest =>
          simp only [floodLoop, hstack]
          by_cases hvis : pixKey w p ∈ s.visited
          · rw [if_pos hvis]
            exact ih _ (floodInv_skip_visited w h pred seed p rest s hseed hstack hs hvis)
          · rw [if_neg hvis]
            by_cases hoob : inBounds w h p = false
            · rw [if_pos hoob]
              exact ih _ (floodInv_skip_oob w h pred seed p rest s hseed hstack hs hoob)
            · rw [if_neg hoob]
              have hinb : inBounds w h p = true := by
                revert hoob
                cases inBounds w h p <;> simp
              by_cases hpred : pred p = false
              · rw [if_pos hpred]
                exact ih _ (floodInv_reject w h pred seed p rest s hseed hstack hs hpred)
              · rw [if_neg hpred]
                have hpt : pred p = true := by
                  revert hpred
                  cases pred p <;> simp
                exact ih _
                  (floodInv_accept w h pred d seed p rest s hseed hstack hs hvis hinb hpt)

theorem floodInv_init (w h : Nat) (pred : Int × Int → Bool) (seed : Int × Int) :
    FloodInv w h pred seed ⟨[seed], ∅, ∅, []⟩ := by
  constructor
  · intro p hp
    exact absurd hp (Finset.not_mem_empty p)
  · intro p hp
    left
    simpa using hp
  · intro q hq
    exact absurd hq (Finset.not_mem_empty q)
  · right
    simp
  · simp
  · intro p hp
    exact absurd hp (Finset.not_mem_empty p)
  · intro p hok
    simp

theorem reach_ok (w h : Nat) (pred : Int × Int → Bool) (seed q : Int × Int)
    (hr : Reach w h pred seed q) : okPixel w h pred q := by
  cases hr with
  | refl hok => exact hok
  | step _ _ hok => exact hok

theorem floodLoop_mask_iff_reach (w h : Nat) (pred : Int × Int → Bool)
    (d : Discipline) (seed : Int × Int) (hseed : okPixel w h pred seed)
    (fuel : Nat) (hfuel : floodMeasure w h ⟨[seed], ∅, ∅, []⟩ ≤ fuel) :
    ∀ p, p ∈ (floodLoop w h pred d fuel ⟨[seed], ∅, ∅, []⟩).mask ↔
      Reach w h pred seed p := by
  have hinv := floodLoop_inv w h pred d seed hseed fuel _ (floodInv_init w h pred seed)
  have hnil := floodLoop_stack_nil w h pred d fuel _ hfuel
  intro p
  constructor
  · exact fun hp => hinv.mask_reach p hp
  · intro hr
    induction hr with
    | refl hok =>
        rcases hinv.seed_in with hm | hs
        · exact hm
        · rw [hnil] at hs
          cases hs
    | step hr2 hn hok ih =>
        rcases hinv.closed _ ih _ hn hok with hm | hs
        · exact hm
        · rw [hnil] at hs
          cases hs

theorem floodMeasure_init_le (w h : Nat) (seed : Int × Int) :
    floodMeasure w h ⟨[seed], ∅, ∅, []⟩ ≤ floodFuel w h := by
  simp [floodMeasure, floodFuel, Finset.sdiff_empty, card_validKeys]

theorem chanDiff_self (a : Nat) : chanDiff a a = 0 := by
  simp [chanDiff]

theorem colorOk_seed (img : Img) (tol sx sy : Nat) :
    colorOk img (img.data (sy * img.width + sx)) tol ((sx : Int), (sy : Int))
      = true := by
  have h1 : ((sy : Int) * (img.width : Int) + (sx : Int))
      = ((sy * img.width + sx : Nat) : Int) := by
    push_cast
    ring
  simp only [colorOk]
  rw [h1, Int.toNat_natCast, chanDiff_self, chanDiff_self, chanDiff_self]
  simp

theorem seed_okPixel (img : Img) (tol sx sy : Nat)
    (hx : sx < img.width) (hy : sy < img.height) :
    okPixel img.width img.height
      (colorOk img (img.data (sy * img.width + sx)) tol)
      ((sx : Int), (sy : Int)) := by
  refine ⟨?_, colorOk_seed img tol sx sy⟩
  rw [inBounds_pair_iff]
  omega

/-- C3: the set of pixels selected by `segmentAtPoint` is the same whether
the pending-pixel worklist is processed LIFO (the code's stack) or FIFO
(a queue); moreover it equals the 4-connected component containing the seed
of the pixels whose summed absolute R,G,B differences from the seed pixel
are at most `tolerance * 3`, independent of traversal order. -/
theorem segment_order_independent_C3 (img : Img) (sx sy tol : Nat)
    (hx : sx < img.width) (hy : sy < img.height) :
    segmentMask img sx sy tol stackDisc = segmentMask img sx sy tol queueDisc ∧
    ∀ p, p ∈ segmentMask img sx sy tol stackDisc ↔
      Reach img.width img.height
        (colorOk img (img.data (sy * img.width + sx)) tol)
        ((sx : Int), (sy : Int)) p := by
  have hs := seed_okPixel img tol sx sy hx hy
  have h1 := floodLoop_mask_iff_reach img.width img.height
    (colorOk img (img.data (sy * img.width + sx)) tol) stackDisc
    ((sx : Int), (sy : Int)) hs (floodFuel img.width img.height)
    (floodMeasure_init_le img.width img.height ((sx : Int), (sy : Int)))
  have h2 := floodLoop_mask_iff_reach img.width img.height
    (colorOk img (img.data (sy * img.width + sx)) tol) queueDisc
    ((sx : Int), (sy : Int)) hs (floodFuel img.width img.height)
    (floodMeasure_init_le img.width img.height ((sx : Int), (sy : Int)))
  constructor
  · apply Finset.ext
    intro p
    rw [segmentMask, segmentRun, segmentMask, segmentRun]
    rw [h1 p, h2 p]
  · intro p
    rw [segmentMask, segmentRun]
    exact h1 p

theorem segment_order_independent_C3_witness :
    segmentMask ⟨2, 2, fun k => if k = 3 then ⟨255, 255, 255, 255⟩
        else ⟨0, 0, 0, 255⟩⟩ 0 0 32 stackDisc
      = segmentMask ⟨2, 2, fun k => if k = 3 then ⟨255, 255, 255, 255⟩
        else ⟨0, 0, 0, 255⟩⟩ 0 0 32 queueDisc :=
  (segment_order_independent_C3 ⟨2, 2, fun k => if k = 3 then ⟨255, 255, 255, 255⟩
    else ⟨0, 0, 0, 255⟩⟩ 0 0 32 (by decide) (by decide)).1

theorem reach_row (w h : Nat) (pred : Int × Int → Bool)
    (hpred : ∀ q, pred q = true) (sx sy : Nat) (hx : sx < w) (hy : sy < h) :
    ∀ a : Nat, a < w → Reach w h pred ((sx : Int), (sy : Int)) ((a : Int), (sy : Int)) := by
  have hseedok : okPixel w h pred ((sx : Int), (sy : Int)) :=
    ⟨by rw [inBounds_pair_iff]; omega, hpred _⟩
  have hright : ∀ n : Nat, sx + n < w →
      Reach w h pred ((sx : Int), (sy : Int)) (((sx + n : Nat) : Int), (sy : Int)) := by
    intro n
    induction n with
    | zero =>
        intro h0
        simpa using Reach.refl hseedok
    | succ m ihm =>
        intro hm
        have hstep : Reach w h pred ((sx : Int), (sy : Int))
            ((((sx + m : Nat) : Int) + 1), (sy : Int)) :=
          Reach.step (ihm (by omega)) (by simp [neighbors])
            ⟨by rw [inBounds_pair_iff]; constructor <;> omega, hpred _⟩
        have hcast : (((sx + (m + 1) : Nat)) : Int) = ((sx + m : Nat) : Int) + 1 := by
          push_cast
          ring
        rwa [hcast]
  have hleft : ∀ n : Nat, n ≤ sx →
      Reach w h pred ((sx : Int), (sy : Int)) (((sx - n : Nat) : Int), (sy : Int)) := by
    intro n
    induction n with
    | zero =>
        intro h0
        simpa using Reach.refl hseedok
    | succ m ihm =>
        intro hm
        have hstep : Reach w h pred ((sx : Int), (sy : Int))
            ((((sx - m : Nat) : Int) - 1), (sy : Int)) :=
          Reach.step (ihm (by omega)) (by simp [neighbors])
            ⟨by rw [inBounds_pair_iff]; constructor <;> omega, hpred _⟩
        have hcast : (((sx - (m + 1) : Nat)) : Int) = ((sx - m : Nat) : Int) - 1 := by
          omega
        rwa [hcast]
  intro a ha
  by_cases hcase : sx ≤ a
  · have := hright (a - sx) (by omega)
    rwa [show sx + (a - sx) = a by omega] at this
  · have := hleft (sx - a) (by omega)
    rwa [show sx - (sx - a) = a by omega] at this

theorem reach_col (w h : Nat) (pred : Int × Int → Bool)
    (hpred : ∀ q, pred q = true) (seed : Int × Int) (a : Nat) (ha : a < w)
    (sy : Nat) (hsy : sy < h)
    (hbase : Reach w h pred seed ((a : Int), (sy : Int))) :
    ∀ b : Nat, b < h → Reach w h pred seed ((a : Int), (b : Int)) := by
  have hdown : ∀ n : Nat, sy + n < h →
      Reach w h pred seed ((a : Int), ((sy + n : Nat) : Int)) := by
    intro n
    induction n with
    | zero =>
        intro h0
        simpa using hbase
    | succ m ihm =>
        intro hm
        have hstep : Reach w h pred seed
            ((a : Int), (((sy + m : Nat) : Int) + 1)) :=
          Reach.step (ihm (by omega)) (by simp [neighbors])
            ⟨by rw [inBounds_pair_iff]; constructor <;> omega, hpred _⟩
        have hcast : (((sy + (m + 1) : Nat)) : Int) = ((sy + m : Nat) : Int) + 1 := by
          push_cast
          ring
        rwa [hcast]
  have hup : ∀ n : Nat, n ≤ sy →
      Reach w h pred seed ((a : Int), ((sy - n : Nat) : Int)) := by
    intro n
    induction n with
    | zero =>
        intro h0
        simpa using hbase
    | succ m ihm =>
        intro hm
        have hstep : Reach w h pred seed
            ((a : Int), (((sy - m : Nat) : Int) - 1)) :=
          Reach.step (ihm (by omega)) (by simp [neighbors])
            ⟨by rw [inBounds_pair_iff]; constructor <;> omega, hpred _⟩
        have hcast : (((sy - (m + 1) : Nat)) : Int) = ((sy - m : Nat) : Int) - 1 := by
          omega
        rwa [hcast]
  intro b hb
  by_cases hcase : sy ≤ b
  · have := hdown (b - sy) (by omega)
    rwa [show sy + (b - sy) = b by omega] at this
  · have := hup (sy - b) (by omega)
    rwa [show sy - (sy - b) = b by omega] at this

theorem reach_of_inBounds_all (w h : Nat) (pred : Int × Int → Bool)
    (hpred : ∀ q, pred q = true) (sx sy : Nat) (hx : sx < w) (hy : sy < h)
    (p : Int × Int) (hp : inBounds w h p = true) :
    Reach w h pred ((sx : Int), (sy : Int)) p := by
  obtain ⟨x, y⟩ := p
  rw [inBounds_pair_iff] at hp
  obtain ⟨h1, h2, h3, h4⟩ := hp
  obtain ⟨a, rfl⟩ := Int.eq_ofNat_of_zero_le h1
  obtain ⟨b, rfl⟩ := Int.eq_ofNat_of_zero_le h3
  have ha : a < w := by exact_mod_cast h2
  have hb : b < h := by exact_mod_cast h4
  exact reach_col w h pred hpred ((sx : Int), (sy : Int)) a ha sy hy
    (reach_row w h pred hpred sx sy hx hy a ha) b hb

/-- C7: on an image of uniform color every pixel passes the color test, so
`segmentAtPoint` selects every pixel: for every in-bounds seed and every
tolerance the selected set is exactly the set of in-bounds pixels. -/
theorem segment_uniform_C7 (img : Img) (c : Rgba) (hc : ∀ k, img.data k = c)
    (sx sy tol : Nat) (hx : sx < img.width) (hy : sy < img.height) :
    ∀ p : Int × Int, p ∈ segmentMask img sx sy tol stackDisc ↔
      inBounds img.width img.height p = true := by
  have hpred : ∀ q, colorOk img (img.data (sy * img.width + sx)) tol q = true := by
    intro q
    simp only [colorOk]
    rw [hc, hc, chanDiff_self, chanDiff_self, chanDiff_self]
    simp
  have hchar := (segment_order_independent_C3 img sx sy tol hx hy).2
  intro p
  rw [hchar p]
  constructor
  · exact fun hr => (reach_ok _ _ _ _ _ hr).1
  · exact fun hinb => reach_of_inBounds_all img.width img.height _ hpred sx sy hx hy p hinb

theorem segment_uniform_C7_witness :
    ((1 : Int), (1 : Int)) ∈ segmentMask ⟨2, 2, fun _ => ⟨5, 5, 5, 255⟩⟩ 0 0 0 stackDisc :=
  (segment_uniform_C7 ⟨2, 2, fun _ => ⟨5, 5, 5, 255⟩⟩ ⟨5, 5, 5, 255⟩ (fun _ => rfl)
    0 0 0 (by decide) (by decide) ((1 : Int), (1 : Int))).mpr (by decide)

/-- C8 counterexample: on the 2×2 image whose bottom-right pixel is white
and the rest black, segmenting from (0,0) with the code's stack discipline
evaluates the color test of the rejected pixel (1,1) twice — once per
accepted neighbor — because only accepted pixels are entered into
`visited`. This refutes the claim that every pixel is evaluated at most
once. -/
theorem segment_reeval_twice_C8 :
    (segmentRun ⟨2, 2, fun k => if k = 3 then ⟨255, 255, 255, 255⟩
        else ⟨0, 0, 0, 255⟩⟩ 0 0 32 stackDisc).evals.count ((1 : Int), (1 : Int)) = 2 ∧
    ¬ ((segmentRun ⟨2, 2, fun k => if k = 3 then ⟨255, 255, 255, 255⟩
        else ⟨0, 0, 0, 255⟩⟩ 0 0 32 stackDisc).evals.count ((1 : Int), (1 : Int)) ≤ 1) := by
  decide

/-- C8 (amended): the visited tracking protects accepted pixels: every pixel
accepted into the mask has its color-similarity test evaluated exactly once
during the run (after acceptance, popping it again is skipped via
`visited`); rejected pixels are not tracked and may be re-evaluated when
popped again. -/
theorem segment_eval_once_C8 (img : Img) (sx sy tol : Nat) (d : Discipline)
    (hx : sx < img.width) (hy : sy < img.height) :
    ∀ p ∈ (segmentRun img sx sy tol d).mask,
      (segmentRun img sx sy tol d).evals.count p = 1 := by
  have hs := seed_okPixel img tol sx sy hx hy
  have hinv := floodLoop_inv img.width img.height
    (colorOk img (img.data (sy * img.width + sx)) tol) d
    ((sx : Int), (sy : Int)) hs (floodFuel img.width img.height) _
    (floodInv_init img.width img.height _ ((sx : Int), (sy : Int)))
  intro p hp
  simp only [segmentRun] at hp ⊢
  have hok := reach_ok _ _ _ _ _ (hinv.mask_reach p hp)
  have hcount := hinv.evals_count p hok
  rwa [if_pos hp] at hcount

theorem segment_eval_once_C8_witness :
    (segmentRun ⟨2, 2, fun k => if k = 3 then ⟨255, 255, 255, 255⟩
        else ⟨0, 0, 0, 255⟩⟩ 0 0 32 stackDisc).evals.count ((0 : Int), (0 : Int)) = 1 :=
  segment_eval_once_C8 ⟨2, 2, fun k => if k = 3 then ⟨255, 255, 255, 255⟩
      else ⟨0, 0, 0, 255⟩⟩ 0 0 32 stackDisc (by decide) (by decide)
    ((0 : Int), (0 : Int)) (by decide)

/-- Flaw marker attached to a version: a point, a description, and a
resolved flag. -/
structure Flaw where
  id : String
  x : Int
  y : Int
  description : String
  resolved : Bool
  createdAt : Nat
deriving DecidableEq, Repr

/-- Immutable version record of the project store. -/
structure Version where
  id : String
  imageUrl : String
  parentId : Option String
  prompt : String
  mask : Option String
  flaws : List Flaw
  createdAt : Nat
deriving DecidableEq, Repr

/-- Project state of the store: version list plus current pointer. -/
structure Project where
  id : String
  name : String
  versions : List Version
  currentVersionId : String
  createdAt : Nat
  updatedAt : Nat
deriving DecidableEq, Repr

/-- `createProject`: a single root version with null parent and the
"Original upload" prompt, set as current. -/
def createProject (projectId versionId name initialImageUrl : String)
    (now : Nat) : Project :=
  { id := projectId, name := name,
    versions := [{ id := versionId, imageUrl := initialImageUrl,
                   parentId := none, prompt := "Original upload",
                   mask := none, flaws := [], createdAt := now }],
    currentVersionId := versionId, createdAt := now, updatedAt := now }

/-- `addVersion`: build the new version with the caller-supplied `parentId`
(the store performs no validation of `parentId`), append it to the version
list and set it current. The uuid generated inside the store is modelled as
the explicit argument `versionId`. -/
def addVersion (p : Project) (versionId imageUrl prompt : String)
    (mask : Option String) (parentId : String) (now : Nat) :
    Project × Version :=
  let newVersion : Version :=
    { id := versionId, imageUrl := imageUrl, parentId := some parentId,
      prompt := prompt, mask := mask, flaws := [], createdAt := now }
  ({ p with versions := p.versions ++ [newVersion],
            currentVersionId := versionId, updatedAt := now },
   newVersion)

/-- `setCurrentVersion`: move only the current pointer. -/
def setCurrentVersion (p : Project) (versionId : String) (now : Nat) : Project :=
  { p with currentVersionId := versionId, updatedAt := now }

/-- `getVersionById`: first version whose id matches. -/
def getVersionById (p : Project) (id : String) : Option Version :=
  p.versions.find? (fun v => v.id == id)

/-- `getCurrentVersion`: look up the current pointer. -/
def getCurrentVersion (p : Project) : Option Version :=
  getVersionById p p.currentVersionId

/-- The `while (version)` walk of `getVersionHistory`, embedded with explicit
fuel: each iteration prepends the version and follows the parent link via
`find?`; the result is `none` when the fuel runs out before the walk ends. -/
def walkHistory (p : Project) : Nat → Version → Option (List Version)
  | 0, _ => none
  | fuel + 1, v =>
    match v.parentId with
    | none => some [v]
    | some pid =>
      match p.versions.find? (fun w => w.id == pid) with
      | none => some [v]
      | some par => (walkHistory p fuel par).map (fun l => l ++ [v])

/-- `getVersionHistory`: walk from the current version. Fuel
`p.versions.length` suffices on every reachable project
(`history_terminates_C10`). -/
def getVersionHistory (p : Project) : Option (List Version) :=
  match getCurrentVersion p with
  | none => some []
  | some v => walkHistory p p.versions.length v

/-- All id strings occurring in a project (version ids and parent links);
a freshly generated uuid differs from every one of them. -/
def usedIds (p : Project) : List String :=
  p.versions.map (fun v => v.id) ++ p.versions.filterMap (fun v => v.parentId)

/-- Project states reachable by the store operations. Uuid freshness is
modelled explicitly: the generated id differs from every id string already
in the store and from the caller-supplied parent id. -/
inductive Reachable : Project → Prop
  | created (projectId versionId name imageUrl : String) (now : Nat) :
      Reachable (createProject projectId versionId name imageUrl now)
  | add (p : Project) (versionId imageUrl prompt : String)
      (mask : Option String) (parentId : String) (now : Nat) :
      Reachable p → versionId ∉ usedIds p → versionId ≠ parentId →
      Reachable (addVersion p versionId imageUrl prompt mask parentId now).1
  | setCur (p : Project) (versionId : String) (now : Nat) :
      Reachable p → Reachable (setCurrentVersion p versionId now)

/-- Parent links never point at the same or a later position of the version
list: this is the acyclicity invariant maintained by construction. -/
def GraphOrdered (p : Project) : Prop :=
  ∀ i j, i ≤ j → ∀ (hi : i < p.versions.length) (hj : j < p.versions.length),
    (p.versions[i]).parentId ≠ some ((p.versions[j]).id)

theorem reachable_graphOrdered (p : Project) (hp : Reachable p) :
    GraphOrdered p := by
  induction hp with
  | created projectId versionId name imageUrl now =>
      intro i j hij hi hj
      simp only [createProject, List.length_singleton] at hi hj
      interval_cases i
      interval_cases j
      simp [createProject]
  | add p versionId imageUrl prompt mask parentId now hr hfresh hne ih =>
      intro i j hij hi hj
      simp only [addVersion, List.get_eq_getElem, List.length_append,
        List.length_singleton] at hi hj ⊢
      by_cases hjlt : j < p.versions.length
      · have hilt : i < p.versions.length := lt_of_le_of_lt hij hjlt
        rw [List.getElem_append_left hilt, List.getElem_append_left hjlt]
        simpa [List.get_eq_getElem] using ih i j hij hilt hjlt
      · have hj2 : j = p.versions.length := by omega
        subst hj2
        rw [List.getElem_append_right (Nat.le_refl _)]
        by_cases hilt : i < p.versions.length
        · rw [List.getElem_append_left hilt]
          intro hcontra
          apply hfresh
          simp only [usedIds, List.mem_append]
          right
          rw [List.mem_filterMap]
          refine ⟨p.versions[i], List.getElem_mem _, ?_⟩
          simpa using hcontra
        · have hi2 : i = p.versions.length := by omega
          subst hi2
          rw [List.getElem_append_right (Nat.le_refl _)]
          intro hcontra
          simp only [Nat.sub_self, List.getElem_singleton, Option.some.injEq] at hcontra
          exact hne hcontra.symm
  | setCur p versionId now hr ih =>
      intro i j hij hi hj
      exact ih i j hij hi hj

theorem walkHistory_last (p : Project) :
    ∀ fuel v l, walkHistory p fuel v = some l → l.getLast? = some v := by
  intro fuel
  induction fuel with
  | zero =>
      intro v l h
      simp [walkHistory] at h
  | succ n ih =>
      intro v l h
      cases hpar : v.parentId with
      | none =>
          simp only [walkHistory, hpar] at h
          cases h
          rfl
      | some pid =>
          simp only [walkHistory, hpar] at h
          cases hfind : p.versions.find? (fun w => w.id == pid) with
          | none =>
              rw [hfind] at h
              cases h
              rfl
          | some par =>
              rw [hfind] at h
              obtain ⟨l0, hl0, rfl⟩ := Option.map_eq_some'.mp h
              simp [List.getLast?_concat]

theorem walkHistory_isSome (p : Project) (hord : GraphOrdered p) :
    ∀ j (hj : j < p.versions.length) fuel, j < fuel →
      (walkHistory p fuel (p.versions[j])).isSome := by
  intro j
  induction j using Nat.strong_induction_on with
  | _ j ih =>
    intro hj fuel hfuel
    obtain ⟨f, rfl⟩ : ∃ f, fuel = f + 1 := ⟨fuel - 1, by omega⟩
    cases hpar : (p.versions[j]).parentId with
    | none => simp [walkHistory, hpar]
    | some pid =>
        cases hfind : p.versions.find? (fun w => w.id == pid) with
        | none => simp [walkHistory, hpar, hfind]
        | some par =>
            have hmem : par ∈ p.versions := List.mem_of_find?_eq_some hfind
            have hid : par.id = pid := by
              simpa using List.find?_some hfind
            obtain ⟨⟨k, hk⟩, hkeq⟩ := List.mem_iff_get.mp hmem
            rw [List.get_eq_getElem] at hkeq
            have hklt : k < j := by
              by_contra hge
              exact hord j k (by omega) hj hk (by rw [hpar, hkeq, hid])
            have hrec := ih k hklt hk f (by omega)
            rw [hkeq] at hrec
            simp only [walkHistory, hpar, hfind]
            simpa using hrec

/-- C10: on every project state reachable via createProject, addVersion and
setCurrentVersion, the parent-chain walk terminates within
`versions.length` steps from every version present, returning a finite
sequence that ends at the start version; in particular `getVersionHistory`
succeeds. -/
theorem history_terminates_C10 (p : Project) (hp : Reachable p) :
    (getVersionHistory p).isSome = true ∧
    ∀ v ∈ p.versions, ∃ l, walkHistory p p.versions.length v = some l ∧
      l.getLast? = some v := by
  have hord := reachable_graphOrdered p hp
  have hwalk : ∀ v ∈ p.versions, (walkHistory p p.versions.length v).isSome := by
    intro v hv
    obtain ⟨⟨j, hj⟩, hjeq⟩ := List.mem_iff_get.mp hv
    rw [List.get_eq_getElem] at hjeq
    have := walkHistory_isSome p hord j hj p.versions.length hj
    rwa [hjeq] at this
  constructor
  · unfold getVersionHistory
    cases hcur : getCurrentVersion p with
    | none => simp
    | some v =>
        have hv : v ∈ p.versions :=
          List.mem_of_find?_eq_some (by simpa [getCurrentVersion, getVersionById] using hcur)
        simpa using hwalk v hv
  · intro v hv
    obtain ⟨l, hl⟩ := Option.isSome_iff_exists.mp (hwalk v hv)
    exact ⟨l, hl, walkHistory_last p _ v l hl⟩

theorem history_terminates_C10_witness :
    (getVersionHistory ((addVersion (createProject "p" "r" "house" "img" 0)
        "a" "img2" "edit" none "r" 1).1)).isSome = true :=
  (history_terminates_C10 _
    (Reachable.add _ "a" "img2" "edit" none "r" 1
      (Reachable.created "p" "r" "house" "img" 0) (by decide) (by decide))).1

/-- C1 counterexample: calling `addVersion` with parent id "ghost", which
names no version of the project, does not fail and does not leave the
project unchanged — the version set grows to two entries and the current
pointer moves to the new version. -/
theorem addVersion_dangling_mutates_C1 :
    ("ghost" ∉ ((createProject "p" "r" "house" "img" 0).versions.map (fun v => v.id))) ∧
    ¬ ((addVersion (createProject "p" "r" "house" "img" 0) "a" "img2" "edit" none
        "ghost" 1).1.versions = (createProject "p" "r" "house" "img" 0).versions) ∧
    (addVersion (createProject "p" "r" "house" "img" 0) "a" "img2" "edit" none
        "ghost" 1).1.versions.length = 2 ∧
    (addVersion (createProject "p" "r" "house" "img" 0) "a" "img2" "edit" none
        "ghost" 1).1.currentVersionId = "a" := by
  decide

/-- C1 (amended): `addVersion` performs no parent validation. Even when
`parentId` references no existing version it appends the new version, whose
parent link dangles, and sets it current; no error is reported and no
version is dropped. -/
theorem addVersion_no_validation_C1 (p : Project)
    (versionId imageUrl prompt : String) (mask : Option String)
    (parentId : String) (now : Nat)
    (_hdangling : parentId ∉ p.versions.map (fun v => v.id)) :
    (addVersion p versionId imageUrl prompt mask parentId now).1.versions
      = p.versions ++ [(addVersion p versionId imageUrl prompt mask parentId now).2] ∧
    (addVersion p versionId imageUrl prompt mask parentId now).1.currentVersionId
      = versionId ∧
    (addVersion p versionId imageUrl prompt mask parentId now).2.parentId
      = some parentId :=
  ⟨rfl, rfl, rfl⟩

theorem addVersion_no_validation_C1_witness :
    (addVersion (createProject "p" "r" "house" "img" 0) "a" "img2" "edit" none
        "ghost" 1).1.versions
      = (createProject "p" "r" "house" "img" 0).versions ++
        [(addVersion (createProject "p" "r" "house" "img" 0) "a" "img2" "edit" none
            "ghost" 1).2] :=
  (addVersion_no_validation_C1 _ "a" "img2" "edit" none "ghost" 1 (by decide)).1

/-- C5: forking from a common parent. Starting from a project whose only
version is the root R, adding child A with parent R and then child B with
parent R retains R, A and B in the version set; the parent-chain walk from A
yields [R, A] and from B yields [R, B] (also through `setCurrentVersion`
followed by `getVersionHistory`), and R's record is unmodified. -/
theorem fork_branches_C5 (pid name idR idA idB imgR imgA imgB prA prB : String)
    (mA mB : Option String) (t0 t1 t2 t3 t4 : Nat)
    (hA : idA ≠ idR) (hB : idB ≠ idR) (hAB : idB ≠ idA) :
    ∃ R A B : Version,
      (createProject pid idR name imgR t0).versions = [R] ∧
      A = (addVersion (createProject pid idR name imgR t0) idA imgA prA mA idR t1).2 ∧
      B = (addVersion (addVersion (createProject pid idR name imgR t0) idA imgA prA mA
            idR t1).1 idB imgB prB mB idR t2).2 ∧
      (addVersion (addVersion (createProject pid idR name imgR t0) idA imgA prA mA
            idR t1).1 idB imgB prB mB idR t2).1.versions = [R, A, B] ∧
      walkHistory (addVersion (addVersion (createProject pid idR name imgR t0) idA imgA
            prA mA idR t1).1 idB imgB prB mB idR t2).1 3 A = some [R, A] ∧
      walkHistory (addVersion (addVersion (createProject pid idR name imgR t0) idA imgA
            prA mA idR t1).1 idB imgB prB mB idR t2).1 3 B = some [R, B] ∧
      getVersionHistory (setCurrentVersion (addVersion (addVersion
            (createProject pid idR name imgR t0) idA imgA prA mA idR t1).1
            idB imgB prB mB idR t2).1 idA t3) = some [R, A] ∧
      getVersionHistory (setCurrentVersion (addVersion (addVersion
            (createProject pid idR name imgR t0) idA imgA prA mA idR t1).1
            idB imgB prB mB idR t2).1 idB t4) = some [R, B] := by
  have e1 : (idR == idR) = true := beq_self_eq_true idR
  have e2 : (idA == idA) = true := beq_self_eq_true idA
  have e3 : (idB == idB) = true := beq_self_eq_true idB
  have f1 : (idR == idA) = false := beq_eq_false_iff_ne.mpr (Ne.symm hA)
  have f2 : (idR == idB) = false := beq_eq_false_iff_ne.mpr (Ne.symm hB)
  have f3 : (idA == idB) = false := beq_eq_false_iff_ne.mpr (Ne.symm hAB)
  refine ⟨{ id := idR, imageUrl := imgR, parentId := none,
            prompt := "Original upload", mask := none, flaws := [], createdAt := t0 },
          { id := idA, imageUrl := imgA, parentId := some idR,
            prompt := prA, mask := mA, flaws := [], createdAt := t1 },
          { id := idB, imageUrl := imgB, parentId := some idR,
            prompt := prB, mask := mB, flaws := [], createdAt := t2 },
          rfl, rfl, rfl, rfl, ?_, ?_, ?_, ?_⟩
  · simp [walkHistory, addVersion, createProject, List.find?, e1]
  · simp [walkHistory, addVersion, createProject, List.find?, e1]
  · simp [getVersionHistory, getCurrentVersion, getVersionById, setCurrentVersion,
      walkHistory, addVersion, createProject, List.find?, e1, e2, f1]
  · simp [getVersionHistory, getCurrentVersion, getVersionById, setCurrentVersion,
      walkHistory, addVersion, createProject, List.find?, e1, e3, f2, f3]

theorem fork_branches_C5_witness :
    ∃ R A B : Version,
      (createProject "p" "r" "house" "imgR" 0).versions = [R] ∧
      A = (addVersion (createProject "p" "r" "house" "imgR" 0) "a" "imgA" "prA" none
            "r" 1).2 ∧
      B = (addVersion (addVersion (createProject "p" "r" "house" "imgR" 0) "a" "imgA"
            "prA" none "r" 1).1 "b" "imgB" "prB" none "r" 2).2 ∧
      (addVersion (addVersion (createProject "p" "r" "house" "imgR" 0) "a" "imgA"
            "prA" none "r" 1).1 "b" "imgB" "prB" none "r" 2).1.versions = [R, A, B] ∧
      walkHistory (addVersion (addVersion (createProject "p" "r" "house" "imgR" 0) "a"
            "imgA" "prA" none "r" 1).1 "b" "imgB" "prB" none "r" 2).1 3 A
        = some [R, A] ∧
      walkHistory (addVersion (addVersion (createProject "p" "r" "house" "imgR" 0) "a"
            "imgA" "prA" none "r" 1).1 "b" "imgB" "prB" none "r" 2).1 3 B
        = some [R, B] ∧
      getVersionHistory (setCurrentVersion (addVersion (addVersion
            (createProject "p" "r" "house" "imgR" 0) "a" "imgA" "prA" none "r" 1).1
            "b" "imgB" "prB" none "r" 2).1 "a" 3) = some [R, A] ∧
      getVersionHistory (setCurrentVersion (addVersion (addVersion
            (createProject "p" "r" "house" "imgR" 0) "a" "imgA" "prA" none "r" 1).1
            "b" "imgB" "prB" none "r" 2).1 "b" 4) = some [R, B] :=
  fork_branches_C5 "p" "house" "r" "a" "b" "imgR" "imgA" "imgB" "prA" "prB"
    none none 0 1 2 3 4 (by decide) (by decide) (by decide)

end Renderless
